import Mathlib

/-!
Verification development for the `max_values` crate.

The crate stores, for a capacity `N` fixed at the type level, the `N`
largest values pushed so far, in an `ArrayVec<T, N>` organised as a
binary min-heap (`MaxValues<T, N>` in `src/lib.rs`, algorithm in
`src/push.rs`, iterator adaptor in `src/iter_ext.rs`).

Embedding conventions:
* the backing `ArrayVec<T, N>` is embedded as a `List T` (its element
  sequence in storage order) together with the capacity `N : Nat`;
* `T : Ord` becomes a `LinearOrder`;
* fallible operations return `Option`: a Rust panic (out-of-bounds
  index, or `ArrayVec::push` on a full vector) is embedded as `none`;
* the two `while` loops of `src/push.rs` become the recursions
  `siftUp` and `siftDown`, with the same 1-based `index` variable as
  the source.  Each carries an explicit `fuel` argument so that the
  recursion is structural; the call sites supply fuel that the
  totality lemmas below prove can never run out (the sift-up cursor
  halves every iteration, the sift-down cursor at least doubles), so
  the `none` of fuel exhaustion is unreachable from the entry points.
-/

set_option linter.unusedSectionVars false

namespace MaxValues

variable {T : Type} [LinearOrder T]

/-- Loop of `MaxValues::push_back` (src/push.rs):
`while index > 1 && self.data[index / 2 - 1] > self.data[index - 1]
 { self.data.swap(index / 2 - 1, index - 1); index /= 2; }`.
Out-of-bounds reads give `none`; `p > c` is written `c < p`. -/
def siftUp (fuel : Nat) (l : List T) (index : Nat) : Option (List T) :=
  match fuel with
  | 0 => none
  | fuel + 1 =>
    if 1 < index then
      match l[index / 2 - 1]?, l[index - 1]? with
      | some p, some c =>
        if c < p then siftUp fuel ((l.set (index / 2 - 1) c).set (index - 1) p) (index / 2)
        else some l
      | _, _ => none
    else some l

/-- Child-selection step of `MaxValues::push_forward` (src/push.rs):
`let left = index * 2; let right = index * 2 + 1; let mut j = left;
 if right <= self.data.len() && self.data[left - 1] > self.data[right - 1] { j = right; }`.
`l[index * 2 - 1]?` is `data[left - 1]`, `l[index * 2]?` is `data[right - 1]`. -/
def chooseChild (l : List T) (index : Nat) : Option Nat :=
  if index * 2 + 1 ≤ l.length then
    match l[index * 2 - 1]?, l[index * 2]? with
    | some a, some b => some (if b < a then index * 2 + 1 else index * 2)
    | _, _ => none
  else some (index * 2)

/-- Loop of `MaxValues::push_forward` (src/push.rs):
`while index * 2 < self.data.len() { ... if self.data[index - 1] > self.data[j - 1]
 { self.data.swap(index - 1, j - 1); index = j; } else { break; } }`. -/
def siftDown (fuel : Nat) (l : List T) (index : Nat) : Option (List T) :=
  match fuel with
  | 0 => none
  | fuel + 1 =>
    if index * 2 < l.length then
      match chooseChild l index with
      | some j =>
        match l[index - 1]?, l[j - 1]? with
        | some a, some b =>
          if b < a then siftDown fuel ((l.set (index - 1) b).set (j - 1) a) j
          else some l
        | _, _ => none
      | none => none
    else some l

/-- `MaxValues::push_back` (src/push.rs): `self.data.push(value)` — which
panics when the `ArrayVec` is already at capacity `N`, embedded as the
capacity guard — then the sift-up loop started at `index = self.data.len()`
(the length after the append, which also serves as fuel). -/
def push_back (N : Nat) (l : List T) (v : T) : Option (List T) :=
  if l.length < N then siftUp (l.length + 1) (l ++ [v]) (l.length + 1) else none

/-- `MaxValues::push_forward` (src/push.rs):
`if self.data[0] > value { return; } self.data[0] = value; let mut index = 1; ...`.
Reading `self.data[0]` on an empty backing array panics (`none`);
the sift-down loop runs with fuel `l.length`. -/
def push_forward (l : List T) (v : T) : Option (List T) :=
  match l[0]? with
  | some root => if v < root then some l else siftDown l.length (l.set 0 v) 1
  | none => none

/-- `MaxValues::push` (src/push.rs):
`if self.data.len() < N { self.push_back(value); } else { self.push_forward(value); }`. -/
def push (N : Nat) (l : List T) (v : T) : Option (List T) :=
  if l.length < N then push_back N l v else push_forward l v

/-- `FromIterator for MaxValues` (src/lib.rs): start from `MaxValues::new()`
(empty backing array) and `push` every element of the iterator in order. -/
def from_iter (N : Nat) (xs : List T) : Option (List T) :=
  xs.foldlM (fun l x => push N l x) []

/-- `MaxValuesIterExt::max_values` (src/iter_ext.rs):
`MaxValues::from_iter(self).into_iter()`; `into_iter` yields the backing
array in storage order, so the result is the backing list itself. -/
def max_values (N : Nat) (xs : List T) : Option (List T) :=
  from_iter N xs

/-- Incremental construction: a container state folded through `push` one
element at a time, as in the `for i in arr { values.push(i); }` client
pattern from the crate documentation. -/
def push_all (N : Nat) (l : List T) (xs : List T) : Option (List T) :=
  match xs with
  | [] => some l
  | x :: rest =>
    match push N l x with
    | some l2 => push_all N l2 rest
    | none => none

/-- Min-heap parent/child relation at 0-based child position `i`: the
element at the parent position `(i - 1) / 2` is ≤ the element at `i`. -/
def pairOK (l : List T) (i : Nat) : Prop :=
  ∀ a b, l[(i - 1) / 2]? = some a → l[i]? = some b → a ≤ b

/-- Min-heap invariant restricted to child positions below `k`. -/
def heapUpTo (l : List T) (k : Nat) : Prop :=
  ∀ i, 1 ≤ i → i < k → pairOK l i

/-- The spec's min-heap invariant: for every index `i` in `[1, len)` the
element at index `(i - 1) / 2` is ≤ the element at index `i`. -/
def heapInv (l : List T) : Prop :=
  heapUpTo l l.length

/-- Portion of a length-`m` backing array that the `push_forward` loop can
ever inspect: everything for odd `m`, all but the final slot for even `m`
(the loop guard `index * 2 < len` skips the lone child at position `len`). -/
def bound (m : Nat) : Nat :=
  if m % 2 = 0 then m - 1 else m

/-- Reachability invariant of a container with capacity `N`: the stored
prefix never exceeds `N`; while the container is filling it is a genuine
min-heap; once full, the heap relation is guaranteed only below `bound N`. -/
def Inv (N : Nat) (l : List T) : Prop :=
  l.length ≤ N ∧ (l.length < N → heapInv l) ∧ (l.length = N → heapUpTo l (bound N))

/-! Basic facts: writing back an element that is already there, and the
permutation produced by one `swap`. -/

theorem set_of_getElem_eq : ∀ (l : List T) (n : Nat) (a : T), l[n]? = some a → l.set n a = l := by
  intro l
  induction l with
  | nil => intro n a h; simp at h
  | cons x t ih =>
    intro n a h
    cases n with
    | zero => simp_all
    | succ m =>
      simp only [List.getElem?_cons_succ] at h
      simp [ih m a h]

theorem cons_set_perm (a b : T) :
    ∀ (l : List T) (m : Nat), l[m]? = some b → (b :: l.set m a).Perm (a :: l) := by
  intro l
  induction l with
  | nil => intro m h; simp at h
  | cons x t ih =>
    intro m h
    cases m with
    | zero =>
      simp only [List.getElem?_cons_zero, Option.some_inj] at h
      subst h
      simpa using List.Perm.swap a x t
    | succ m =>
      simp only [List.getElem?_cons_succ] at h
      have h2 := (ih m h).cons x
      simp only [List.set_cons_succ]
      exact (List.Perm.swap x b _).trans (h2.trans (List.Perm.swap a x t))

theorem swap_perm : ∀ (l : List T) (i j : Nat) (a b : T), i ≠ j →
    l[i]? = some a → l[j]? = some b → ((l.set i b).set j a).Perm l := by
  intro l
  induction l with
  | nil => intro i j a b hij ha hb; simp at ha
  | cons x t ih =>
    intro i j a b hij ha hb
    cases i with
    | zero =>
      cases j with
      | zero => exact absurd rfl hij
      | succ m =>
        simp only [List.getElem?_cons_zero, Option.some_inj] at ha
        simp only [List.getElem?_cons_succ] at hb
        subst ha
        simpa using cons_set_perm x b t m hb
    | succ i =>
      cases j with
      | zero =>
        simp only [List.getElem?_cons_zero, Option.some_inj] at hb
        simp only [List.getElem?_cons_succ] at ha
        subst hb
        simpa using cons_set_perm x a t i ha
      | succ j =>
        simp only [List.getElem?_cons_succ] at ha hb
        simp only [List.set_cons_succ]
        exact (ih i j a b (fun h => hij (by omega)) ha hb).cons x

/-! Lengths are preserved by the two sift loops. -/

theorem siftUp_length : ∀ (fuel : Nat) (l m : List T) (i : Nat),
    siftUp fuel l i = some m → m.length = l.length := by
  intro fuel
  induction fuel with
  | zero => intro l m i h; simp [siftUp] at h
  | succ fuel ih =>
    intro l m i h
    unfold siftUp at h
    split at h
    · split at h
      · split at h
        · have := ih _ _ _ h
          simpa using this
        · simp_all
      · simp at h
    · simp_all

theorem siftDown_length : ∀ (fuel : Nat) (l m : List T) (i : Nat),
    siftDown fuel l i = some m → m.length = l.length := by
  intro fuel
  induction fuel with
  | zero => intro l m i h; simp [siftDown] at h
  | succ fuel ih =>
    intro l m i h
    unfold siftDown at h
    split at h
    · split at h
      · split at h
        · split at h
          · have := ih _ _ _ h
            simpa using this
          · simp_all
        · simp at h
      · simp at h
    · simp_all

theorem push_back_length (N : Nat) (l m : List T) (v : T) :
    push_back N l v = some m → m.length = l.length + 1 := by
  intro h
  unfold push_back at h
  split at h
  · have := siftUp_length _ _ _ _ h
    simpa using this
  · simp at h

theorem push_forward_length (l m : List T) (v : T) :
    push_forward l v = some m → m.length = l.length := by
  intro h
  unfold push_forward at h
  split at h
  · split at h
    · simp_all
    · have := siftDown_length _ _ _ _ h
      simpa using this
  · simp at h

theorem push_length (N : Nat) (l m : List T) (v : T) :
    push N l v = some m → m.length = if l.length < N then l.length + 1 else l.length := by
  intro h
  unfold push at h
  split at h
  next hlt => simp [hlt, push_back_length N l m v h]
  next hlt => simp [hlt, push_forward_length l m v h]

/-! The two sift loops only permute the backing array. -/

theorem siftUp_perm : ∀ (fuel : Nat) (l m : List T) (i : Nat),
    siftUp fuel l i = some m → m.Perm l := by
  intro fuel
  induction fuel with
  | zero => intro l m i h; simp [siftUp] at h
  | succ fuel ih =>
    intro l m i h
    unfold siftUp at h
    split at h
    next hgt =>
      split at h
      next o1 o2 p c hp hc =>
        split at h
        · have hne : i / 2 - 1 ≠ i - 1 := by omega
          exact (ih _ _ _ h).trans (swap_perm l (i / 2 - 1) (i - 1) p c hne hp hc)
        · simp_all
      · simp at h
    · simp_all

theorem siftDown_perm : ∀ (fuel : Nat) (l m : List T) (i : Nat),
    siftDown fuel l i = some m → m.Perm l := by
  intro fuel
  induction fuel with
  | zero => intro l m i h; simp [siftDown] at h
  | succ fuel ih =>
    intro l m i h
    unfold siftDown at h
    split at h
    · split at h
      next o1 j hj =>
        split at h
        next o2 o3 a b ha hb =>
          split at h
          next hba =>
            have hne : i - 1 ≠ j - 1 := by
              intro he
              rw [he, hb] at ha
              exact absurd (Option.some_inj.mp ha) (by intro hh; subst hh; exact lt_irrefl _ hba)
            exact (ih _ _ _ h).trans (swap_perm l (i - 1) (j - 1) a b hne ha hb)
          · simp_all
        · simp at h
      · simp at h
    · simp_all

/-! Child selection: inside the loop (`index * 2 < len`) it always succeeds,
returns the 1-based position of a child of `index`, and that child holds the
smaller of the two child values. -/

theorem get_some (l : List T) (n : Nat) (h : n < l.length) : ∃ x : T, l[n]? = some x :=
  ⟨l.get ⟨n, h⟩, by simp [List.getElem?_eq_getElem h]⟩

theorem chooseChild_min (l : List T) (i : Nat) (h : i * 2 < l.length) :
    ∃ j b, chooseChild l i = some j ∧ (j = i * 2 ∨ j = i * 2 + 1) ∧ l[j - 1]? = some b ∧
      ∀ q c, (q = i * 2 - 1 ∨ q = i * 2) → l[q]? = some c → b ≤ c := by
  obtain ⟨x, ha⟩ := get_some l (i * 2 - 1) (by omega)
  obtain ⟨y, hb⟩ := get_some l (i * 2) h
  by_cases hc : y < x
  · refine ⟨i * 2 + 1, y, ?_, Or.inr rfl, by simpa using hb, ?_⟩
    · unfold chooseChild
      rw [if_pos (by omega)]
      simp only [ha, hb]
      rw [if_pos hc]
    · intro q c hq hqc
      rcases hq with hq | hq <;> subst hq
      · rw [ha] at hqc
        exact le_of_lt (lt_of_lt_of_le hc (le_of_eq (Option.some_inj.mp hqc)))
      · rw [hb] at hqc
        exact le_of_eq (Option.some_inj.mp hqc)
  · refine ⟨i * 2, x, ?_, Or.inl rfl, ha, ?_⟩
    · unfold chooseChild
      rw [if_pos (by omega)]
      simp only [ha, hb]
      rw [if_neg hc]
    · intro q c hq hqc
      rcases hq with hq | hq <;> subst hq
      · rw [ha] at hqc
        exact le_of_eq (Option.some_inj.mp hqc)
      · rw [hb] at hqc
        exact le_of_le_of_eq (le_of_not_lt hc) (Option.some_inj.mp hqc)

/-! Totality: with the fuel supplied at the call sites, the sift loops never
run out of fuel and never index out of bounds. -/

theorem siftUp_isSome : ∀ (fuel : Nat) (l : List T) (i : Nat),
    1 ≤ i → i ≤ fuel → i ≤ l.length → (siftUp fuel l i).isSome := by
  intro fuel
  induction fuel with
  | zero => intro l i h1 h2 h3; omega
  | succ fuel ih =>
    intro l i h1 h2 h3
    unfold siftUp
    by_cases hgt : 1 < i
    · rw [if_pos hgt]
      obtain ⟨w, hp⟩ := get_some l (i / 2 - 1) (by omega)
      obtain ⟨u, hc⟩ := get_some l (i - 1) (by omega)
      simp only [hp, hc]
      by_cases hlt : u < w
      · rw [if_pos hlt]
        exact ih _ (i / 2) (by omega) (by omega) (by simp; omega)
      · rw [if_neg hlt]
        simp
    · rw [if_neg hgt]
      simp

theorem siftDown_isSome : ∀ (fuel : Nat) (l : List T) (i : Nat),
    1 ≤ i → l.length - i < fuel → (siftDown fuel l i).isSome := by
  intro fuel
  induction fuel with
  | zero => intro l i h1 h2; omega
  | succ fuel ih =>
    intro l i h1 h2
    unfold siftDown
    by_cases hgt : i * 2 < l.length
    · rw [if_pos hgt]
      obtain ⟨j, b, hj, hjor, hjb, hmin⟩ := chooseChild_min l i hgt
      obtain ⟨u, ha⟩ := get_some l (i - 1) (by omega)
      simp only [hj, ha, hjb]
      by_cases hlt : b < u
      · rw [if_pos hlt]
        refine ih _ j (by omega) ?_
        simp only [List.length_set]
        omega
      · rw [if_neg hlt]
        simp
    · rw [if_neg hgt]
      simp

theorem push_isSome (N : Nat) (l : List T) (v : T) (h : 1 ≤ N) :
    (push N l v).isSome := by
  unfold push
  by_cases hlt : l.length < N
  · rw [if_pos hlt]
    unfold push_back
    rw [if_pos hlt]
    exact siftUp_isSome _ _ _ (by omega) (by omega) (by simp)
  · rw [if_neg hlt]
    unfold push_forward
    obtain ⟨w, h0⟩ := get_some l 0 (by omega)
    simp only [h0]
    by_cases hv : v < w
    · rw [if_pos hv]
      simp
    · rw [if_neg hv]
      exact siftDown_isSome _ _ _ (by omega) (by simp; omega)

/-! Bulk construction: the `foldlM` of `from_iter` agrees with the
incremental `push_all` loop, lengths obey the size bound, construction
succeeds for every positive capacity, and stored elements come from the
input. -/

theorem foldlM_eq_push_all (N : Nat) :
    ∀ (xs : List T) (l : List T), xs.foldlM (fun l x => push N l x) l = push_all N l xs := by
  intro xs
  induction xs with
  | nil => intro l; simp [push_all]
  | cons x rest ih =>
    intro l
    rw [List.foldlM_cons]
    unfold push_all
    cases hp : push N l x with
    | none => simp [hp]
    | some l2 => simp [hp, ih l2]

theorem from_iter_eq_push_all (N : Nat) (xs : List T) :
    from_iter N xs = push_all N [] xs :=
  foldlM_eq_push_all N xs []

theorem push_all_length (N : Nat) : ∀ (xs : List T) (l m : List T), l.length ≤ N →
    push_all N l xs = some m → m.length = min (l.length + xs.length) N := by
  intro xs
  induction xs with
  | nil =>
    intro l m hl h
    simp only [push_all, Option.some_inj] at h
    subst h
    have h0 : (List.length ([] : List T)) = 0 := rfl
    omega
  | cons x rest ih =>
    intro l m hl h
    unfold push_all at h
    cases hp : push N l x with
    | none => rw [hp] at h; simp at h
    | some l2 =>
      rw [hp] at h
      have hlen2 := push_length N l l2 x hp
      by_cases hc : l.length < N
      · rw [if_pos hc] at hlen2
        have := ih l2 m (by omega) h
        simp only [List.length_cons]
        omega
      · rw [if_neg hc] at hlen2
        have := ih l2 m (by omega) h
        simp only [List.length_cons]
        omega

theorem from_iter_length (N : Nat) (xs m : List T) (h : from_iter N xs = some m) :
    m.length = min xs.length N := by
  rw [from_iter_eq_push_all] at h
  simpa using push_all_length N xs [] m (by simp) h

theorem push_all_isSome (N : Nat) (h : 1 ≤ N) :
    ∀ (xs : List T) (l : List T), (push_all N l xs).isSome := by
  intro xs
  induction xs with
  | nil => intro l; simp [push_all]
  | cons x rest ih =>
    intro l
    obtain ⟨l2, hl2⟩ := Option.isSome_iff_exists.mp (push_isSome N l x h)
    unfold push_all
    rw [hl2]
    exact ih l2

theorem from_iter_isSome (N : Nat) (xs : List T) (h : 1 ≤ N) :
    (from_iter N xs).isSome := by
  rw [from_iter_eq_push_all]
  exact push_all_isSome N h xs []

theorem push_mem (N : Nat) (l m : List T) (v : T) (h : push N l v = some m) :
    ∀ x ∈ m, x ∈ l ∨ x = v := by
  intro x hx
  unfold push at h
  split at h
  · unfold push_back at h
    split at h
    · have hperm := siftUp_perm _ _ _ _ h
      have hm := hperm.mem_iff.mp hx
      rcases List.mem_append.mp hm with h1 | h1
      · exact Or.inl h1
      · exact Or.inr (List.mem_singleton.mp h1)
    · omega
  · unfold push_forward at h
    split at h
    next root hroot =>
      split at h
      · simp only [Option.some_inj] at h
        subst h
        exact Or.inl hx
      · have hperm := siftDown_perm _ _ _ _ h
        have := hperm.mem_iff.mp hx
        rcases List.mem_or_eq_of_mem_set this with h1 | h1
        · exact Or.inl h1
        · exact Or.inr h1
    · simp at h

theorem push_all_mem (N : Nat) : ∀ (xs : List T) (l m : List T),
    push_all N l xs = some m → ∀ x ∈ m, x ∈ l ∨ x ∈ xs := by
  intro xs
  induction xs with
  | nil =>
    intro l m h x hx
    simp only [push_all, Option.some_inj] at h
    subst h
    exact Or.inl hx
  | cons y rest ih =>
    intro l m h x hx
    unfold push_all at h
    cases hp : push N l y with
    | none => rw [hp] at h; simp at h
    | some l2 =>
      rw [hp] at h
      rcases ih l2 m h x hx with h1 | h1
      · rcases push_mem N l l2 y hp x h1 with h2 | h2
        · exact Or.inl h2
        · exact Or.inr (by simp [h2])
      · exact Or.inr (by simp [h1])

theorem from_iter_mem (N : Nat) (xs m : List T) (h : from_iter N xs = some m) :
    ∀ x ∈ m, x ∈ xs := by
  intro x hx
  rw [from_iter_eq_push_all] at h
  rcases push_all_mem N xs [] m h x hx with h1 | h1
  · simp at h1
  · exact h1

/-! Multiset effect of a single `push`. -/

theorem push_back_multiset (N : Nat) (l m : List T) (v : T) (h : push_back N l v = some m) :
    (↑m : Multiset T) = v ::ₘ (↑l : Multiset T) := by
  unfold push_back at h
  split at h
  · have hperm := siftUp_perm _ _ _ _ h
    have h2 : m.Perm (v :: l) := hperm.trans (List.perm_append_singleton v l)
    exact_mod_cast Multiset.coe_eq_coe.mpr h2
  · simp at h

theorem push_forward_keep (l : List T) (v r : T) (hr : l[0]? = some r) (hv : v < r) :
    push_forward l v = some l := by
  unfold push_forward
  simp only [hr]
  rw [if_pos hv]

theorem push_forward_replace (l m : List T) (v r : T) (hr : l[0]? = some r)
    (hv : ¬ v < r) (h : push_forward l v = some m) :
    (↑m : Multiset T) = v ::ₘ ((↑l : Multiset T).erase r) := by
  unfold push_forward at h
  simp only [hr] at h
  rw [if_neg hv] at h
  have hperm := siftDown_perm _ _ _ _ h
  cases l with
  | nil => simp at hr
  | cons x t =>
    simp only [List.getElem?_cons_zero, Option.some_inj] at hr
    subst hr
    have h2 : m.Perm (v :: t) := by simpa using hperm
    have h3 : (↑m : Multiset T) = ↑(v :: t) := Multiset.coe_eq_coe.mpr h2
    simp only [h3]
    simp [Multiset.cons_coe]

/-! Heap-shape lemmas.  `siftUp_heap` is the classic sift-up argument: if
every parent/child pair except the one ending at the cursor holds, and the
value at the cursor's parent sits below the cursor's children (`H3`), the
loop restores the full invariant. -/

theorem siftUp_heap : ∀ (fuel : Nat) (l m : List T) (i : Nat),
    1 ≤ i → i ≤ fuel → i ≤ l.length →
    (∀ j, 1 ≤ j → j < l.length → j ≠ i - 1 → pairOK l j) →
    (∀ j, 1 ≤ j → j < l.length → (j - 1) / 2 = i - 1 →
      ∀ pv jv, l[(i - 1 - 1) / 2]? = some pv → l[j]? = some jv → pv ≤ jv) →
    siftUp fuel l i = some m → heapInv m := by
  intro fuel
  induction fuel with
  | zero => intro l m i h1 h2; exact absurd h1 (by omega)
  | succ fuel ih =>
    intro l m i h1 h2 h3 H1 H3 h
    unfold siftUp at h
    by_cases hgt : 1 < i
    case neg =>
      rw [if_neg hgt] at h
      simp only [Option.some_inj] at h
      subst h
      intro q hq1 hq2
      exact H1 q hq1 hq2 (by omega)
    case pos =>
      rw [if_pos hgt] at h
      have hplt : i / 2 - 1 < l.length := by omega
      have hclt : i - 1 < l.length := by omega
      obtain ⟨w, hp⟩ := get_some l (i / 2 - 1) hplt
      obtain ⟨u, hc⟩ := get_some l (i - 1) hclt
      simp only [hp, hc] at h
      by_cases hlt : u < w
      case neg =>
        rw [if_neg hlt] at h
        simp only [Option.some_inj] at h
        subst h
        intro q hq1 hq2
        by_cases hqc : q = i - 1
        · subst hqc
          intro a b hpa hqb
          rw [show (i - 1 - 1) / 2 = i / 2 - 1 by omega, hp] at hpa
          rw [hc] at hqb
          have e1 := Option.some_inj.mp hpa
          have e2 := Option.some_inj.mp hqb
          subst e1
          subst e2
          exact le_of_not_lt hlt
        · exact H1 q hq1 hq2 hqc
      case pos =>
        rw [if_pos hlt] at h
        have hne : i - 1 ≠ i / 2 - 1 := by omega
        have hlen2 : ((l.set (i / 2 - 1) u).set (i - 1) w).length
            = l.length := by simp
        have hgc : ((l.set (i / 2 - 1) u).set (i - 1) w)[i - 1]?
            = some w :=
          List.getElem?_set_self (by simpa using hclt)
        have hgp : ((l.set (i / 2 - 1) u).set (i - 1) w)[i / 2 - 1]?
            = some u := by
          rw [List.getElem?_set_ne hne]
          exact List.getElem?_set_self hplt
        have hoth : ∀ q, q ≠ i - 1 → q ≠ i / 2 - 1 →
            ((l.set (i / 2 - 1) u).set (i - 1) w)[q]? = l[q]? := by
          intro q hq1 hq2
          rw [List.getElem?_set_ne (Ne.symm hq1), List.getElem?_set_ne (Ne.symm hq2)]
        refine ih _ m (i / 2) (by omega) (by omega) (by rw [hlen2]; omega) ?_ ?_ h
        · -- every pair not ending at the new cursor `i / 2 - 1` holds after the swap
          intro q hq1 hq2 hqp
          rw [hlen2] at hq2
          by_cases hqc : q = i - 1
          · subst hqc
            intro a b hpa hqb
            rw [show (i - 1 - 1) / 2 = i / 2 - 1 by omega, hgp] at hpa
            rw [hgc] at hqb
            have e1 := Option.some_inj.mp hpa
            have e2 := Option.some_inj.mp hqb
            subst e1
            subst e2
            exact le_of_lt hlt
          · by_cases hqpc : (q - 1) / 2 = i - 1
            · intro a b hpa hqb
              rw [hqpc, hgc] at hpa
              rw [hoth q hqc hqp] at hqb
              have e1 := Option.some_inj.mp hpa
              subst e1
              exact H3 q hq1 hq2 hqpc _ b
                (by rw [show (i - 1 - 1) / 2 = i / 2 - 1 by omega]; exact hp) hqb
            · by_cases hqps : (q - 1) / 2 = i / 2 - 1
              · intro a b hpa hqb
                rw [hqps, hgp] at hpa
                rw [hoth q hqc hqp] at hqb
                have e1 := Option.some_inj.mp hpa
                subst e1
                exact le_trans (le_of_lt hlt) (H1 q hq1 hq2 hqc _ b (by rw [hqps]; exact hp) hqb)
              · intro a b hpa hqb
                rw [hoth ((q - 1) / 2) hqpc hqps] at hpa
                rw [hoth q hqc hqp] at hqb
                exact H1 q hq1 hq2 hqc a b hpa hqb
        · -- the parent of the new cursor sits below the new cursor's children
          intro q hq1 hq2 hqpar pv jv hpa hqb
          rw [hlen2] at hq2
          by_cases hp0 : i / 2 - 1 = 0
          · rw [show (i / 2 - 1 - 1) / 2 = i / 2 - 1 by omega, hgp] at hpa
            have e1 := Option.some_inj.mp hpa
            subst e1
            by_cases hqc : q = i - 1
            · subst hqc
              rw [hgc] at hqb
              have e2 := Option.some_inj.mp hqb
              subst e2
              exact le_of_lt hlt
            · have hqp2 : q ≠ i / 2 - 1 := by omega
              rw [hoth q hqc hqp2] at hqb
              exact le_trans (le_of_lt hlt) (H1 q hq1 hq2 hqc _ jv (by rw [hqpar]; exact hp) hqb)
          · have hgne1 : (i / 2 - 1 - 1) / 2 ≠ i - 1 := by omega
            have hgne2 : (i / 2 - 1 - 1) / 2 ≠ i / 2 - 1 := by omega
            rw [hoth _ hgne1 hgne2] at hpa
            have h7 : pv ≤ w :=
              H1 (i / 2 - 1) (by omega) hplt (by omega) pv _ hpa hp
            by_cases hqc : q = i - 1
            · subst hqc
              rw [hgc] at hqb
              have e2 := Option.some_inj.mp hqb
              subst e2
              exact h7
            · have hqp2 : q ≠ i / 2 - 1 := by omega
              rw [hoth q hqc hqp2] at hqb
              exact le_trans h7 (H1 q hq1 hq2 hqc _ jv (by rw [hqpar]; exact hp) hqb)

/-- Classic sift-down argument, relativised to the prefix `k` of child
positions that the loop guard `index * 2 < len` can reach (`hkg`); `k` is
odd (or `0`), which is what makes the guard equivalent to "both children
lie inside the prefix". -/
theorem siftDown_heap : ∀ (fuel : Nat) (l m : List T) (i k : Nat),
    1 ≤ i → l.length - i < fuel → k ≤ l.length →
    (∀ q, q * 2 < l.length ↔ q * 2 < k) →
    (k % 2 = 1 ∨ k = 0) →
    i - 1 < k →
    (∀ j, 1 ≤ j → j < k → (j - 1) / 2 ≠ i - 1 → pairOK l j) →
    (2 ≤ i → ∀ j, 1 ≤ j → j < k → (j - 1) / 2 = i - 1 →
      ∀ pv jv, l[(i - 1 - 1) / 2]? = some pv → l[j]? = some jv → pv ≤ jv) →
    siftDown fuel l i = some m → heapUpTo m k := by
  intro fuel
  induction fuel with
  | zero => intro l m i k h1 h2; exact absurd h2 (by omega)
  | succ fuel ih =>
    intro l m i k h1 h2 hk hkg hko hik H1 H3 h
    unfold siftDown at h
    by_cases hgt : i * 2 < l.length
    case neg =>
      rw [if_neg hgt] at h
      simp only [Option.some_inj] at h
      subst h
      intro q hq1 hq2
      by_cases hpar : (q - 1) / 2 = i - 1
      · exfalso
        have := hkg i
        omega
      · exact H1 q hq1 hq2 hpar
    case pos =>
      rw [if_pos hgt] at h
      obtain ⟨j, b, hj, hjor, hjb, hmin⟩ := chooseChild_min l i hgt
      have halt : i - 1 < l.length := by omega
      obtain ⟨u, ha⟩ := get_some l (i - 1) halt
      simp only [hj, ha, hjb] at h
      have hjk : j - 1 < k := by
        have := hkg i
        omega
      by_cases hba : b < u
      case neg =>
        rw [if_neg hba] at h
        simp only [Option.some_inj] at h
        subst h
        intro q hq1 hq2
        by_cases hpar : (q - 1) / 2 = i - 1
        · intro a' b' hpa hqb
          rw [hpar, ha] at hpa
          have e1 := Option.some_inj.mp hpa
          subst e1
          exact le_trans (le_of_not_lt hba) (hmin q b' (by omega) hqb)
        · exact H1 q hq1 hq2 hpar
      case pos =>
        rw [if_pos hba] at h
        have hne : j - 1 ≠ i - 1 := by omega
        have hlen2 : ((l.set (i - 1) b).set (j - 1) u).length = l.length := by simp
        have hgd : ((l.set (i - 1) b).set (j - 1) u)[i - 1]? = some b := by
          rw [List.getElem?_set_ne hne]
          exact List.getElem?_set_self halt
        have hge : ((l.set (i - 1) b).set (j - 1) u)[j - 1]?
            = some u :=
          List.getElem?_set_self (by simp; omega)
        have hoth : ∀ q, q ≠ i - 1 → q ≠ j - 1 →
            ((l.set (i - 1) b).set (j - 1) u)[q]? = l[q]? := by
          intro q hq1 hq2
          rw [List.getElem?_set_ne (Ne.symm hq2), List.getElem?_set_ne (Ne.symm hq1)]
        have hpare : (j - 1 - 1) / 2 = i - 1 := by omega
        refine ih _ m j k (by omega) (by rw [hlen2]; omega) (by rw [hlen2]; exact hk)
          (by rw [hlen2]; exact hkg) hko (by omega) ?_ ?_ h
        · -- pairs not ending below the new cursor `j`
          intro q hq1 hq2 hqp
          by_cases hqe : q = j - 1
          · subst hqe
            intro a' b' hpa hqb
            rw [hpare, hgd] at hpa
            rw [hge] at hqb
            have e1 := Option.some_inj.mp hpa
            have e2 := Option.some_inj.mp hqb
            subst e1
            subst e2
            exact le_of_lt hba
          · by_cases hqd : q = i - 1
            · subst hqd
              intro a' b' hpa hqb
              rw [hgd] at hqb
              have e2 := Option.some_inj.mp hqb
              subst e2
              have hi2 : 2 ≤ i := by omega
              have hoth2 : (i - 1 - 1) / 2 ≠ i - 1 := by omega
              have hoth3 : (i - 1 - 1) / 2 ≠ j - 1 := by omega
              rw [hoth _ hoth2 hoth3] at hpa
              exact H3 hi2 (j - 1) (by omega) hjk hpare a' _ hpa hjb
            · by_cases hqpd : (q - 1) / 2 = i - 1
              · -- sibling of the swapped child
                intro a' b' hpa hqb
                rw [hqpd, hgd] at hpa
                rw [hoth q hqd hqe] at hqb
                have e1 := Option.some_inj.mp hpa
                subst e1
                exact hmin q b' (by omega) hqb
              · intro a' b' hpa hqb
                have hqpe : (q - 1) / 2 ≠ j - 1 := hqp
                rw [hoth _ hqpd hqpe] at hpa
                rw [hoth q hqd hqe] at hqb
                exact H1 q hq1 hq2 hqpd a' b' hpa hqb
        · -- the parent of the new cursor sits below the new cursor's children
          intro hj2 q hq1 hq2 hqpar pv jv hpa hqb
          rw [show (j - 1 - 1) / 2 = i - 1 from hpare, hgd] at hpa
          have e1 := Option.some_inj.mp hpa
          subst e1
          have hqd : q ≠ i - 1 := by omega
          have hqe : q ≠ j - 1 := by omega
          rw [hoth q hqd hqe] at hqb
          exact H1 q hq1 hq2 (by omega) b jv (by rw [hqpar]; exact hjb) hqb

/-! Facts about `bound` and preservation of the reachability invariant. -/

theorem bound_le (m : Nat) : bound m ≤ m := by
  unfold bound
  split <;> omega

theorem bound_odd (m : Nat) : bound m % 2 = 1 ∨ bound m = 0 := by
  unfold bound
  split <;> omega

theorem bound_guard (m : Nat) : ∀ q, q * 2 < m ↔ q * 2 < bound m := by
  intro q
  unfold bound
  split <;> omega

theorem bound_pos (m : Nat) (h : 1 ≤ m) : 1 ≤ bound m := by
  unfold bound
  split <;> omega

theorem bound_ge3 (m : Nat) (h : 3 ≤ m) : 3 ≤ bound m := by
  unfold bound
  split <;> omega

theorem heapUpTo_mono (l : List T) (k k2 : Nat) (h : heapUpTo l k) (hk : k2 ≤ k) :
    heapUpTo l k2 :=
  fun q hq1 hq2 => h q hq1 (by omega)

theorem push_back_heapInv (N : Nat) (l m : List T) (v : T) (hInv : heapInv l)
    (h : push_back N l v = some m) : heapInv m := by
  unfold push_back at h
  split at h
  · refine siftUp_heap (l.length + 1) (l ++ [v]) m (l.length + 1)
      (by omega) le_rfl (by simp) ?_ ?_ h
    · intro j hj1 hj2 hj3
      simp only [List.length_append, List.length_singleton] at hj2
      have hjlt : j < l.length := by omega
      have hplt : (j - 1) / 2 < l.length := by omega
      intro a b hpa hqb
      rw [List.getElem?_append_left hplt] at hpa
      rw [List.getElem?_append_left hjlt] at hqb
      exact hInv j hj1 hjlt a b hpa hqb
    · intro j hj1 hj2 hj3
      exfalso
      simp only [List.length_append, List.length_singleton] at hj2 hj3
      omega
  · simp at h

theorem push_forward_heapUpTo (l m : List T) (v : T)
    (hInv : heapUpTo l (bound l.length)) (h : push_forward l v = some m) :
    heapUpTo m (bound l.length) := by
  unfold push_forward at h
  cases h0 : l[0]? with
  | none => rw [h0] at h; simp at h
  | some root =>
    rw [h0] at h
    simp only at h
    have hlen : 0 < l.length := by
      rcases List.getElem?_eq_some_iff.mp h0 with ⟨hh, _⟩
      exact hh
    split at h
    · simp only [Option.some_inj] at h
      subst h
      exact hInv
    · refine siftDown_heap l.length (l.set 0 v) m 1 (bound l.length)
        le_rfl (by simp; omega) (by simpa using bound_le l.length)
        (by simpa using bound_guard l.length) (bound_odd l.length)
        (by simpa using bound_pos l.length hlen) ?_ (by omega) h
      intro j hj1 hj2 hj3
      have hjne : j ≠ 0 := by omega
      have hpne : (j - 1) / 2 ≠ 0 := hj3
      intro a b hpa hqb
      rw [List.getElem?_set_ne (fun hh => hpne hh.symm)] at hpa
      rw [List.getElem?_set_ne (fun hh => hjne hh.symm)] at hqb
      exact hInv j hj1 hj2 a b hpa hqb

theorem Inv_push (N : Nat) (l m : List T) (v : T) (hI : Inv N l)
    (h : push N l v = some m) : Inv N m := by
  obtain ⟨hlen, hfill, hfull⟩ := hI
  unfold push at h
  split at h
  case isTrue hlt =>
    have hm := push_back_length N l m v h
    have hheap := push_back_heapInv N l m v (hfill hlt) h
    refine ⟨by omega, fun _ => hheap, fun hfm => ?_⟩
    have hh : heapUpTo m m.length := hheap
    rw [hfm] at hh
    exact heapUpTo_mono m N (bound N) hh (bound_le N)
  case isFalse hge =>
    have hm := push_forward_length l m v h
    have hNl : l.length = N := by omega
    have hheap := push_forward_heapUpTo l m v (by rw [hNl]; exact hfull hNl) h
    rw [hNl] at hheap
    exact ⟨by omega, fun hc => absurd hc (by omega), fun _ => hheap⟩

theorem Inv_push_all (N : Nat) : ∀ (xs : List T) (l m : List T), Inv N l →
    push_all N l xs = some m → Inv N m := by
  intro xs
  induction xs with
  | nil =>
    intro l m hI h
    simp only [push_all, Option.some_inj] at h
    subst h
    exact hI
  | cons x rest ih =>
    intro l m hI h
    unfold push_all at h
    cases hp : push N l x with
    | none => rw [hp] at h; simp at h
    | some l2 =>
      rw [hp] at h
      exact ih l2 m (Inv_push N l l2 x hI hp) h

theorem Inv_nil (N : Nat) : Inv N ([] : List T) := by
  refine ⟨by simp, fun _ => ?_, fun hn => ?_⟩
  · intro q hq1 hq2
    simp at hq2
  · intro q hq1 hq2
    simp only [List.length_nil] at hn
    subst hn
    rw [show bound 0 = 0 by simp [bound]] at hq2
    omega

theorem Inv_from_iter (N : Nat) (xs m : List T) (h : from_iter N xs = some m) :
    Inv N m := by
  rw [from_iter_eq_push_all] at h
  exact Inv_push_all N xs [] m (Inv_nil N) h

/-- When the value written over the root is still below both root children,
the sift-down loop exits immediately. -/
theorem siftDown_root_fixed (l : List T) (h0 : 0 < l.length)
    (h1 : 2 < l.length → ∀ a b, l[0]? = some a → l[1]? = some b → a ≤ b)
    (h2 : 2 < l.length → ∀ a b, l[0]? = some a → l[2]? = some b → a ≤ b) :
    siftDown l.length l 1 = some l := by
  obtain ⟨n, hn⟩ : ∃ n, l.length = n + 1 := ⟨l.length - 1, by omega⟩
  unfold siftDown
  rw [hn]
  simp only
  by_cases hg : 1 * 2 < l.length
  · rw [if_pos (by omega : 1 * 2 < n + 1)]
    obtain ⟨j, b, hj, hjor, hjb, hmin⟩ := chooseChild_min l 1 hg
    obtain ⟨w, ha⟩ := get_some l 0 h0
    have hroot : w ≤ b := by
      rcases hjor with hj1 | hj1
      · exact h1 (by omega) _ b ha (by rw [← show j - 1 = 1 by omega]; exact hjb)
      · exact h2 (by omega) _ b ha (by rw [← show j - 1 = 2 by omega]; exact hjb)
    have ha1 : l[1 - 1]? = some w := ha
    simp only [hj, ha1, hjb]
    rw [if_neg (not_lt_of_le hroot)]
  · rw [if_neg (by omega : ¬ 1 * 2 < n + 1)]

/-! The claims. -/

/-- C1: the top-K property fails on the code.  With capacity `N = 2`, pushing
`[3, 10, 20, 15]` leaves the container holding `{20, 10}`, although the
discarded value `15` is strictly greater than the retained value `10` — the
stored multiset is not the 2 largest values offered (those are `{20, 15}`).
The sift-down loop guard `index * 2 < len` never reaches a node whose only
child is the last slot, so after pushing `20` the root wrongly holds `20`
and `15` is compared against it and dropped. -/
theorem C1_topk_failing :
    from_iter 2 [(3 : Int), 10, 20, 15] = some [20, 10] ∧
      15 ∉ [(20 : Int), 10] ∧ (10 : Int) < 15 := by
  decide

/-- C2: the heap invariant fails on the code.  With capacity `N = 2`,
pushing `[3, 10, 20]` produces the backing array `[20, 10]`, whose parent
at index `(1 - 1) / 2 = 0` holds `20 > 10`: the result of the `push` call
violates `heapInv`. -/
theorem C2_heap_failing :
    from_iter 2 [(3 : Int), 10, 20] = some [20, 10] ∧ ¬ heapInv [(20 : Int), 10] := by
  refine ⟨by decide, fun h => ?_⟩
  have := h 1 (by omega) (by simp) 20 10 rfl rfl
  norm_num at this

/-- C3: at capacity `N = 0`, `push` is not a no-op: it falls into
`push_forward`, which reads `self.data[0]` of the empty backing array —
an out-of-bounds panic, embedded as `none`. -/
theorem C3_zero_capacity_panics : push 0 ([] : List Int) 5 = none := by
  decide

/-- C4: for every capacity `N ≥ 1`, `push` is total: every index computed
by `push_back`/`push_forward` is in bounds (and the loops terminate), for
every container state and every pushed sequence — nothing ever panics. -/
theorem C4_push_total (N : Nat) (h : 1 ≤ N) :
    (∀ (l : List T) (v : T), (push N l v).isSome) ∧
      (∀ xs : List T, (from_iter N xs).isSome) :=
  ⟨fun l v => push_isSome N l v h, fun xs => from_iter_isSome N xs h⟩

theorem C4_push_total_witness :
    (push 1 [(0 : Int)] 5).isSome ∧ (from_iter 1 [(2 : Int), 3]).isSome :=
  ⟨(C4_push_total 1 (by decide)).1 [0] 5, (C4_push_total 1 (by decide)).2 [2, 3]⟩

/-- C5: on every reachable full container (built by `from_iter`, with
`len = N`), pushing a value that is ≤ the root element leaves the backing
array — hence the retained multiset — exactly unchanged. -/
theorem C5_full_noop (N : Nat) (xs l : List T) (r v : T)
    (hfi : from_iter N xs = some l) (hlen : l.length = N)
    (hr : l[0]? = some r) (hv : v ≤ r) :
    push N l v = some l := by
  have hI := Inv_from_iter N xs l hfi
  have hb : heapUpTo l (bound N) := hI.2.2 hlen
  obtain ⟨h0, hre⟩ := List.getElem?_eq_some_iff.mp hr
  unfold push
  rw [if_neg (by omega)]
  unfold push_forward
  simp only [hr]
  by_cases hvr : v < r
  · rw [if_pos hvr]
  · rw [if_neg hvr]
    have hveq : v = r := le_antisymm hv (le_of_not_lt hvr)
    subst hveq
    rw [set_of_getElem_eq l 0 v hr]
    refine siftDown_root_fixed l h0 ?_ ?_
    · intro hlen3 a b ha hb2
      have hb3 : 3 ≤ bound N := hlen ▸ bound_ge3 l.length (by omega)
      exact hb 1 (by omega) (by omega) a b (by simpa using ha) hb2
    · intro hlen3 a b ha hb2
      have hb3 : 3 ≤ bound N := hlen ▸ bound_ge3 l.length (by omega)
      exact hb 2 (by omega) (by omega) a b (by simpa using ha) hb2

theorem C5_full_noop_witness : push 3 [(1 : Int), 2, 3] 0 = some [1, 2, 3] :=
  C5_full_noop 3 [1, 2, 3] [1, 2, 3] 1 0 (by decide) rfl rfl (by decide)

/-- C6: the size bound "retained count = min(M, N) after bulk construction"
fails at `N = 0` with a nonempty input: `from_iter` panics (indexes the
empty backing array) instead of producing a container of 0 elements. -/
theorem C6_size_failing :
    ¬ ∃ l : List Int, from_iter 0 [(5 : Int)] = some l ∧ l.length = min 1 0 := by
  rintro ⟨l, hl, _⟩
  rw [show from_iter 0 [(5 : Int)] = none from by decide] at hl
  exact Option.noConfusion hl

/-- C7: bulk construction is the same computation as starting from the
empty container and pushing every element in order — identical final
state (and identical panic behaviour) for every capacity and input. -/
theorem C7_confluence (N : Nat) (xs : List T) :
    from_iter N xs = push_all N [] xs :=
  from_iter_eq_push_all N xs

/-- C8: with capacity 3, the `max_values` pipeline applied to
`[1, 5, 2, 4, 7, 10, 0, 15, 3]` yields the backing array `[7, 10, 15]`,
whose multiset is exactly `{7, 10, 15}`. -/
theorem C8_scenario :
    max_values 3 [(1 : Int), 5, 2, 4, 7, 10, 0, 15, 3] = some [7, 10, 15] ∧
      (↑([7, 10, 15] : List Int) : Multiset Int) = {7, 10, 15} := by
  decide

/-- C9: `push` and `from_iter` are pure functions of their inputs: equal
containers and equal inputs give identical results, element for element,
storage order included. -/
theorem C9_determinism (N : Nat) (l1 l2 : List T) (v1 v2 : T) (xs1 xs2 : List T)
    (hl : l1 = l2) (hv : v1 = v2) (hxs : xs1 = xs2) :
    push N l1 v1 = push N l2 v2 ∧ from_iter N xs1 = from_iter N xs2 := by
  subst hl
  subst hv
  subst hxs
  exact ⟨rfl, rfl⟩

theorem C9_determinism_witness :
    push 2 [(1 : Int)] 5 = push 2 [(1 : Int)] 5 ∧
      from_iter 2 [(1 : Int), 2] = from_iter 2 [(1 : Int), 2] :=
  C9_determinism 2 [(1 : Int)] [(1 : Int)] 5 5 [(1 : Int), 2] [(1 : Int), 2] rfl rfl rfl

/-- C10: multiset delta of one `push`: below capacity it adds the value;
at capacity it either changes nothing (root greater than the value) or
replaces exactly the old root by the value; consequently every stored
element is one of the pushed values. -/
theorem C10_push_delta (N : Nat) (l : List T) (v : T) :
    (l.length < N → ∃ m, push N l v = some m ∧ (↑m : Multiset T) = v ::ₘ (↑l : Multiset T)) ∧
    (l.length = N → ∀ r, l[0]? = some r → v < r → push N l v = some l) ∧
    (l.length = N → ∀ r, l[0]? = some r → r ≤ v →
      ∃ m, push N l v = some m ∧ (↑m : Multiset T) = v ::ₘ ((↑l : Multiset T).erase r)) ∧
    (∀ (xs m : List T), from_iter N xs = some m → ∀ x ∈ m, x ∈ xs) := by
  refine ⟨?_, ?_, ?_, from_iter_mem N⟩
  · intro hlt
    have hs : (push N l v).isSome := push_isSome N l v (by omega)
    obtain ⟨m, hm⟩ := Option.isSome_iff_exists.mp hs
    refine ⟨m, hm, ?_⟩
    unfold push at hm
    rw [if_pos hlt] at hm
    exact push_back_multiset N l m v hm
  · intro hN r hr hv
    unfold push
    rw [if_neg (by omega)]
    exact push_forward_keep l v r hr hv
  · intro hN r hr hv
    have hvr : ¬ v < r := not_lt_of_le hv
    obtain ⟨h0, hre⟩ := List.getElem?_eq_some_iff.mp hr
    have hs : (push_forward l v).isSome := by
      unfold push_forward
      simp only [hr]
      rw [if_neg hvr]
      exact siftDown_isSome _ _ _ le_rfl (by simp; omega)
    obtain ⟨m, hm⟩ := Option.isSome_iff_exists.mp hs
    have hpush : push N l v = some m := by
      unfold push
      rw [if_neg (by omega)]
      exact hm
    exact ⟨m, hpush, push_forward_replace l m v r hr hvr hm⟩

theorem C10_push_delta_witness : push 2 [(5 : Int), 6] 4 = some [5, 6] :=
  (C10_push_delta 2 [(5 : Int), 6] 4).2.1 rfl 5 rfl (by decide)

end MaxValues
